import Mathlib

/-!
# Verification of the `equilibrium-rs` thermo-file parser

A shallow embedding of `src/database.rs` (a nom-based parser for NASA-style
`thermo.inp` files) and proofs about it.

Modelling conventions:

* Input text is `List Char`; a parser is `List Char → Option (List Char × α)`
  returning the unconsumed remainder and the value, mirroring nom's
  `IResult<&str, T>`.
* `f64` values are modelled exactly: every numeric path in the source
  delegates to decimal decoding of a digit string, which we represent as the
  decoded decimal `DecF` (integer significand and power-of-ten exponent),
  interpreted into `ℚ` by `DecF.toQ`.  No claim in scope depends on binary
  rounding, and both sides of every value equation go through the same
  decoder.
* nom's `Err::Error` / `Err::Failure` are conflated into `none`.  The only
  combinator in the source that treats them differently is `many0`, whose
  inner parser (`parse_species`) never produces a `Failure`: every
  float-parser call inside it sits under an `if let Ok(..)` that swallows
  both kinds.  `many0`'s own error case (an iteration that consumes
  nothing) is modelled explicitly.
* Rust's Unicode character classes (`char::is_whitespace`,
  `char::is_alphabetic`) are modelled by their ASCII restrictions; the
  format being parsed is an ASCII Fortran card-image format.
* The `inf`/`nan` exceptional forms of Rust's `f64` decoder and of nom's
  `double` are omitted: no input in scope contains them.
-/

namespace Thermo

/-- nom `space0`/`space1` character class: space and tab. -/
def isNomSpace (c : Char) : Bool := c == ' ' || c == '\t'

/-- nom `multispace0` character class: space, tab, newline, carriage return. -/
def isNomMulti (c : Char) : Bool := c == ' ' || c == '\t' || c == '\n' || c == '\r'

/-- Rust `char::is_whitespace`, restricted to the ASCII whitespace characters. -/
def isRustWS (c : Char) : Bool :=
  c == ' ' || c == '\t' || c == '\n' || c == '\r' || c == '\x0b' || c == '\x0c'

/-- nom `char(c)`: consume exactly the character `c`. -/
def charP (c : Char) (s : List Char) : Option (List Char × Char) :=
  match s with
  | [] => none
  | a :: r => if a == c then some (r, c) else none

/-- nom `tag(t)`: consume exactly the literal `t`. -/
def tagP (t : List Char) (s : List Char) : Option (List Char × Unit) :=
  if t.isPrefixOf s then some (s.drop t.length, ()) else none

/-- nom `space0`: consume any run of spaces/tabs (never fails). -/
def space0 (s : List Char) : Option (List Char × Unit) :=
  some (s.dropWhile isNomSpace, ())

/-- nom `space1`: consume a nonempty run of spaces/tabs. -/
def space1 (s : List Char) : Option (List Char × Unit) :=
  match s with
  | [] => none
  | c :: _ => if isNomSpace c then some (s.dropWhile isNomSpace, ()) else none

/-- nom `multispace0`: consume any run of whitespace including newlines. -/
def multispace0 (s : List Char) : Option (List Char × Unit) :=
  some (s.dropWhile isNomMulti, ())

/-- nom `digit1`: consume a nonempty run of ASCII digits. -/
def digit1 (s : List Char) : Option (List Char × List Char) :=
  let ds := s.takeWhile Char.isDigit
  if ds.isEmpty then none else some (s.drop ds.length, ds)

/-- nom `take_while1(p)`: consume a nonempty run of characters satisfying `p`. -/
def takeWhile1 (p : Char → Bool) (s : List Char) : Option (List Char × List Char) :=
  let t := s.takeWhile p
  if t.isEmpty then none else some (s.drop t.length, t)

/-- nom `take_until(c)` for a one-character needle: the prefix before the first
occurrence of `c` (which stays in the input); fails when `c` is absent. -/
def takeUntilCh (c : Char) (s : List Char) : Option (List Char × List Char) :=
  let pre := s.takeWhile (fun a => a != c)
  let post := s.drop pre.length
  if post.isEmpty then none else some (post, pre)

/-- nom `line_ending`: `"\n"` or `"\r\n"`. -/
def lineEnding (s : List Char) : Option (List Char × Unit) :=
  match s with
  | '\n' :: r => some (r, ())
  | '\r' :: '\n' :: r => some (r, ())
  | _ => none

/-- nom `opt(alt((char('+'), char('-'))))`: an optional sign character. -/
def optSign (s : List Char) : Option (List Char × Option Char) :=
  match s with
  | '+' :: r => some (r, some '+')
  | '-' :: r => some (r, some '-')
  | _ => some (s, none)

/-- The characters of an optional sign (Rust: `sign.map(to_string).unwrap_or_default()`). -/
def signChars (o : Option Char) : List Char :=
  match o with
  | some c => [c]
  | none => []

/-! ## Decimal decoding (exact model of `f64` text decoding) -/

/-- Numeric value of one ASCII digit. -/
def digitVal (c : Char) : ℕ := c.toNat - '0'.toNat

/-- Numeric value of a digit run, most significant first. -/
def digitsToNat (ds : List Char) : ℕ :=
  ds.foldl (fun a c => 10 * a + digitVal c) 0

/-- A decoded decimal number: `num * 10 ^ exp`, exactly. -/
structure DecF where
  num : ℤ
  exp : ℤ
deriving DecidableEq

/-- The decimal zero (`0.0`, the Rust default value). -/
def DecF.zero : DecF := ⟨0, 0⟩

/-- `10^e` for a signed exponent, as a rational. -/
def pow10 (e : ℤ) : ℚ :=
  if 0 ≤ e then ((10 : ℚ) ^ e.toNat) else 1 / (10 : ℚ) ^ (-e).toNat

/-- The exact rational value of a decoded decimal. -/
def DecF.toQ (v : DecF) : ℚ := (v.num : ℚ) * pow10 v.exp

lemma pow10_coe (m : ℕ) : pow10 (m : ℤ) = (10 : ℚ) ^ m := by
  rw [pow10, if_pos (by positivity)]
  simp

lemma pow10_neg_coe (m : ℕ) : pow10 (-(m : ℤ)) = 1 / (10 : ℚ) ^ m := by
  rcases Nat.eq_zero_or_pos m with h | h
  · subst h; simpa using pow10_coe 0
  · rw [pow10, if_neg (by omega)]
    simp

lemma DecF.toQ_mk_neg (n : ℤ) (m : ℕ) : DecF.toQ ⟨n, -(m : ℤ)⟩ = (n : ℚ) / 10 ^ m := by
  rw [DecF.toQ, pow10_neg_coe]
  ring

lemma DecF.toQ_mk_coe (n : ℤ) (m : ℕ) : DecF.toQ ⟨n, (m : ℤ)⟩ = (n : ℚ) * 10 ^ m := by
  rw [DecF.toQ, pow10_coe]

/-- The significand of Rust's `f64` grammar: `Digits '.'? Digits? | '.' Digits`.
Returns the significand digits' value, the number of fraction digits, and the
rest of the string. -/
def parseSignificand (s : List Char) : Option (ℕ × ℕ × List Char) :=
  let ip := s.takeWhile Char.isDigit
  let r1 := s.drop ip.length
  if ip.isEmpty then
    match r1 with
    | '.' :: r2 =>
      let fp := r2.takeWhile Char.isDigit
      if fp.isEmpty then none
      else some (digitsToNat fp, fp.length, r2.drop fp.length)
    | _ => none
  else
    match r1 with
    | '.' :: r2 =>
      let fp := r2.takeWhile Char.isDigit
      some (digitsToNat ip * 10 ^ fp.length + digitsToNat fp, fp.length,
            r2.drop fp.length)
    | _ => some (digitsToNat ip, 0, r1)

/-- The optional exponent of Rust's `f64` grammar: `[eE] [+-]? Digits`.
Returns exponent `0` when no `e`/`E` follows; fails when an `e`/`E` is not
followed by digits. -/
def parseExpPart (s : List Char) : Option (ℤ × List Char) :=
  match s with
  | [] => some (0, [])
  | c :: r =>
    if c == 'e' || c == 'E' then
      let sgnAndRest : ℤ × List Char :=
        match r with
        | '+' :: t => (1, t)
        | '-' :: t => (-1, t)
        | _ => (1, r)
      let ds := sgnAndRest.2.takeWhile Char.isDigit
      if ds.isEmpty then none
      else some (sgnAndRest.1 * (digitsToNat ds : ℤ), sgnAndRest.2.drop ds.length)
    else some (0, s)

/-- Model of Rust `str::parse::<f64>` on its finite decimal grammar
`[+-]? (Digits '.'? Digits? | '.' Digits) ([eE] [+-]? Digits)?`, requiring the
whole string to match; the value is the exact decoded decimal. -/
def rustParseF64 (s : List Char) : Option DecF :=
  let sgnAndRest : Bool × List Char :=
    match s with
    | '+' :: r => (false, r)
    | '-' :: r => (true, r)
    | _ => (false, s)
  match parseSignificand sgnAndRest.2 with
  | none => none
  | some (sig, flen, s2) =>
    match parseExpPart s2 with
    | none => none
    | some (e, s3) =>
      if s3.isEmpty then
        some ⟨if sgnAndRest.1 then -(sig : ℤ) else (sig : ℤ), e - flen⟩
      else none

/-! ## Numeric Literal Reader (`parse_scientific_d`, `parse_float`,
`parse_spaced_float` of `src/database.rs`) -/

/-- nom `recognize((digit1, opt((char('.'), digit1))))`: the Dialect-A mantissa,
returned as the recognized characters. -/
def mantissaD (s : List Char) : Option (List Char × List Char) :=
  match digit1 s with
  | none => none
  | some (r1, ds) =>
    match charP '.' r1 with
    | none => some (r1, ds)
    | some (r2, _) =>
      match digit1 r2 with
      | none => some (r1, ds)
      | some (r3, fs) => some (r3, ds ++ '.' :: fs)

/-- `parse_scientific_d`: Fortran `D`-exponent literal.  Consumes sign, mantissa,
`D`, sign, exponent digits; builds the `E`-form string and decodes it with the
host decoder (`rustParseF64`). -/
def parse_scientific_d (input : List Char) : Option (List Char × DecF) :=
  match optSign input with
  | none => none
  | some (i1, sgn) =>
    match mantissaD i1 with
    | none => none
    | some (i2, mantissa) =>
      match charP 'D' i2 with
      | none => none
      | some (i3, _) =>
        match optSign i3 with
        | none => none
        | some (i4, expSgn) =>
          match digit1 i4 with
          | none => none
          | some (i5, exponent) =>
            let scientificStr :=
              signChars sgn ++ mantissa ++ 'E' :: (signChars expSgn ++ exponent)
            match rustParseF64 scientificStr with
            | some v => some (i5, v)
            | none => none

/-- The optional exponent tail of nom `recognize_float`:
`opt(( alt((char('e'), char('E'))), opt(sign), cut(digit1) ))`.  The `cut`
means an `e`/`E` not followed by digits fails the whole parse. -/
def expTail (sgn : Option Char) (mc : List Char) (s2 : List Char) :
    Option (List Char × List Char) :=
  match s2 with
  | [] => some ([], signChars sgn ++ mc)
  | c :: r =>
    if c == 'e' || c == 'E' then
      match optSign r with
      | none => none
      | some (r2, esgn) =>
        match digit1 r2 with
        | some (r3, ds) =>
          some (r3, signChars sgn ++ mc ++ c :: (signChars esgn ++ ds))
        | none => none
    else some (s2, signChars sgn ++ mc)

/-- nom `recognize_float` (the grammar of nom's `double`):
`[+-]? (digit1 ('.' digit0?)? | '.' digit1) ([eE] [+-]? cut(digit1))?`.
Returns the recognized characters. -/
def recognizeFloat (s : List Char) : Option (List Char × List Char) :=
  match optSign s with
  | none => none
  | some (s1, sgn) =>
    let mant : Option (List Char × List Char) :=
      match digit1 s1 with
      | some (r1, ds) =>
        match charP '.' r1 with
        | some (r2, _) =>
          let fs := r2.takeWhile Char.isDigit
          some (r2.drop fs.length, ds ++ '.' :: fs)
        | none => some (r1, ds)
      | none =>
        match charP '.' s1 with
        | some (r2, _) =>
          match digit1 r2 with
          | some (r3, ds) => some (r3, '.' :: ds)
          | none => none
        | none => none
    match mant with
    | none => none
    | some (s2, mc) => expTail sgn mc s2

/-- nom `double`: recognize a float and decode the recognized slice. -/
def nomDouble (s : List Char) : Option (List Char × DecF) :=
  match recognizeFloat s with
  | none => none
  | some (rest, tok) =>
    match rustParseF64 tok with
    | some v => some (rest, v)
    | none => none

/-- `parse_float`: `alt((parse_scientific_d, double))`. -/
def parse_float (s : List Char) : Option (List Char × DecF) :=
  match parse_scientific_d s with
  | some r => some r
  | none => nomDouble s

/-- `parse_spaced_float`: `delimited(space0, parse_float, space0)`. -/
def parse_spaced_float (s : List Char) : Option (List Char × DecF) :=
  match parse_float (s.dropWhile isNomSpace) with
  | none => none
  | some (r, v) => some (r.dropWhile isNomSpace, v)

/-! ## Rust string utilities used by the source -/

/-- Rust `str::trim_start` (ASCII whitespace). -/
def rustTrimStart (s : List Char) : List Char := s.dropWhile isRustWS

/-- Rust `str::trim` (ASCII whitespace). -/
def rustTrim (s : List Char) : List Char :=
  ((s.dropWhile isRustWS).reverse.dropWhile isRustWS).reverse

/-- Helper for `splitWs`: `acc` holds the current token, reversed. -/
def splitWsAux : List Char → List Char → List (List Char)
  | [], acc => if acc.isEmpty then [] else [acc.reverse]
  | c :: rest, acc =>
    if isRustWS c then
      if acc.isEmpty then splitWsAux rest [] else acc.reverse :: splitWsAux rest []
    else splitWsAux rest (c :: acc)

/-- Rust `str::split_whitespace` (ASCII whitespace): the nonempty maximal
runs of non-whitespace characters, in order. -/
def splitWs (s : List Char) : List (List Char) := splitWsAux s []

/-- `parts[i]`, total (`[]` out of range; the source only indexes in range). -/
def getTok (parts : List (List Char)) (i : ℕ) : List Char := parts.getD i []

/-! ## Data model (`ThermoFile`, `ThermoHeader`, `Species`, `TemperatureRange`) -/

structure ThermoHeader where
  temp_ranges : List DecF
  date : List Char
deriving DecidableEq

structure TemperatureRange where
  temp_low : DecF
  temp_high : DecF
  coefficients : List DecF
  integration_constants : List DecF
deriving DecidableEq

structure Species where
  name : List Char
  description : List Char
  elements : List (List Char × DecF)
  molecular_weight : DecF
  heat_of_formation : DecF
  temperature_ranges : List TemperatureRange
deriving DecidableEq

structure ThermoFile where
  header : ThermoHeader
  species : List Species
deriving DecidableEq

/-! ## Header Reader (`parse_header`) -/

/-- `parse_header`: the `thermo` marker, whitespace, four spaced floats, then
the rest of the line (trimmed) as the date. -/
def parse_header (input : List Char) : Option (List Char × ThermoHeader) := do
  let (i1, _) ← tagP "thermo".data input
  let (i2, _) ← multispace0 i1
  let (i3, temp1) ← parse_spaced_float i2
  let (i4, temp2) ← parse_spaced_float i3
  let (i5, temp3) ← parse_spaced_float i4
  let (i6, temp4) ← parse_spaced_float i5
  let (i7, _) ← space0 i6
  let (i8, date) ← takeUntilCh '\n' i7
  let (i9, _) ← lineEnding i8
  some (i9, ⟨[temp1, temp2, temp3, temp4], rustTrim date⟩)

/-! ## Element-Composition Reader (`parse_elements`) -/

/-- The loop body of `parse_elements`, with fuel.  Each successful iteration
consumes at least one character, so fuel `input.length + 1` is never
exhausted; on any step failure the loop stops and returns the pairs
accumulated so far together with the text from before this iteration's
`space0` (the Rust loop `break`s with `remaining` unchanged). -/
def parse_elementsAux : ℕ → List Char → List (List Char × DecF) × List Char
  | 0, remaining => ([], remaining)
  | fuel + 1, remaining =>
    if remaining.isEmpty then ([], remaining)
    else
      let rest := remaining.dropWhile isNomSpace
      if rest.isEmpty then ([], remaining)
      else
        match takeWhile1 (fun c => c.isAlpha) rest with
        | none => ([], remaining)
        | some (rest2, element) =>
          match parse_spaced_float rest2 with
          | none => ([], remaining)
          | some (rest3, count) =>
            let p := parse_elementsAux fuel rest3
            ((element, count) :: p.1, p.2)

/-- `parse_elements`: alternating element-symbol / count pairs; never fails. -/
def parse_elements (input : List Char) :
    Option (List Char × List (List Char × DecF)) :=
  let p := parse_elementsAux (input.length + 1) input
  some (p.2, p.1)

/-! ## Species-Record Reader (`parse_species_header`, `parse_species`) -/

/-- `parse_species_header`: name, description (to the first `' '`), the rest of
the line split by `parse_elements` into element pairs and a remainder whose
last two whitespace tokens give molecular weight and heat of formation
(defaulting to `0.0` on decode failure). -/
def parse_species_header (input : List Char) :
    Option (List Char × (List Char × List Char × List (List Char × DecF) × DecF × DecF)) := do
  let (i1, name) ← takeWhile1 (fun c => !isRustWS c) input
  let (i2, _) ← space1 i1
  let (i3, descriptionPart) ← takeUntilCh ' ' i2
  let (i4, _) ← space1 i3
  let (i5, restOfLine) ← takeUntilCh '\n' i4
  let (i6, _) ← lineEnding i5
  let (remaining, elements) ← parse_elements restOfLine
  let parts := splitWs (rustTrim remaining)
  let molecularWeight :=
    if parts.length ≥ 2 then (rustParseF64 (getTok parts (parts.length - 2))).getD DecF.zero
    else DecF.zero
  let heatOfFormation :=
    if parts.length ≥ 1 then (rustParseF64 (getTok parts (parts.length - 1))).getD DecF.zero
    else DecF.zero
  some (i6, (name, descriptionPart, elements, molecularWeight, heatOfFormation))

/-! ## Temperature-Range Reader (`parse_temperature_range`) -/

/-- One slot update: decode the token as a Dialect-A literal (a prefix parse:
leftover text after the literal is ignored, `if let Ok((_, val))`); on success
set slot `i`, on failure leave the array unchanged. -/
def setIfD (cs : List DecF) (i : ℕ) (t : List Char) : List DecF :=
  match parse_scientific_d t with
  | some (_, v) => cs.set i v
  | none => cs

/-- `for (i, part) in toks.iter().enumerate() { if let Ok((_, val)) = ... }`,
writing slot `start + i`. -/
def applyToksD (cs : List DecF) (start : ℕ) (toks : List (List Char)) : List DecF :=
  toks.enum.foldl (fun acc p => setIfD acc (start + p.1) p.2) cs

/-- Line 2 of a range block: up to the first 5 tokens into slots 0–4. -/
def line2Coeffs (cs : List DecF) (parts : List (List Char)) : List DecF :=
  applyToksD cs 0 (parts.take 5)

/-- Line 3 of a range block: the first 2 tokens into slots 5–6. -/
def line3Coeffs (cs : List DecF) (parts : List (List Char)) : List DecF :=
  applyToksD cs 5 (parts.take 2)

/-- Line 3 of a range block: when it has at least 4 tokens, the last 2 tokens
into the 2 integration-constant slots; otherwise both stay `0.0`. -/
def line3Consts (parts : List (List Char)) : List DecF :=
  if parts.length ≥ 4 then
    applyToksD (List.replicate 2 DecF.zero) 0 (parts.drop (parts.length - 2))
  else List.replicate 2 DecF.zero

/-- `parse_temperature_range`: a 3-line block (bounds line, two packed
coefficient lines). -/
def parse_temperature_range (input : List Char) :
    Option (List Char × TemperatureRange) := do
  let (i1, _) ← space0 input
  let (i2, tempLow) ← parse_spaced_float i1
  let (i3, tempHigh) ← parse_spaced_float i2
  let (i4, _) ← takeUntilCh '\n' i3
  let (i5, _) ← lineEnding i4
  let (i6, coeffLine1) ← takeUntilCh '\n' i5
  let (i7, _) ← lineEnding i6
  let (i8, coeffLine2) ← takeUntilCh '\n' i7
  let (i9, _) ← lineEnding i8
  let parts1 := splitWs (rustTrim coeffLine1)
  let parts2 := splitWs (rustTrim coeffLine2)
  let coefficients := line3Coeffs (line2Coeffs (List.replicate 7 DecF.zero) parts1) parts2
  let integrationConstants := line3Consts parts2
  some (i9, ⟨tempLow, tempHigh, coefficients, integrationConstants⟩)

/-- The species loop's stopping test: remaining text starts (after leading
whitespace) with `END` or an alphabetic character, or is all whitespace. -/
def speciesStop (remaining : List Char) : Bool :=
  "END".data.isPrefixOf (rustTrimStart remaining) ||
  (match rustTrimStart remaining with
   | c :: _ => c.isAlpha
   | [] => false) ||
  (rustTrim remaining).isEmpty

/-- The temperature-range loop of `parse_species`, with fuel (each successful
`parse_temperature_range` consumes at least the three line terminators, so
fuel `remaining.length + 1` is never exhausted). -/
def tempRangeLoop : ℕ → List Char → List TemperatureRange × List Char
  | 0, remaining => ([], remaining)
  | fuel + 1, remaining =>
    if speciesStop remaining then ([], remaining)
    else
      match parse_temperature_range remaining with
      | some (rest, tr) =>
        let p := tempRangeLoop fuel rest
        (tr :: p.1, p.2)
      | none => ([], remaining)

/-- `parse_species`: one species header line, then temperature-range blocks
until the stopping test or a failed block parse. -/
def parse_species (input : List Char) : Option (List Char × Species) := do
  let (i1, t) ← parse_species_header input
  let p := tempRangeLoop (i1.length + 1) i1
  some (p.2, ⟨t.1, t.2.1, t.2.2.1, t.2.2.2.1, t.2.2.2.2, p.1⟩)

/-! ## File Reader (`parse_thermo_file`) -/

/-- nom `many0(parse_species)`, with fuel: collect species until the first
failure; an iteration that succeeds without consuming input is nom's
`ErrorKind::Many0` error.  Each success strictly consumes, so fuel
`s.length + 1` is never exhausted (`many0Species_total`). -/
def many0Species : ℕ → List Char → Option (List Char × List Species)
  | 0, _ => none
  | fuel + 1, s =>
    match parse_species s with
    | none => some (s, [])
    | some (r, sp) =>
      if r.length = s.length then none
      else
        match many0Species fuel r with
        | none => none
        | some (rem, tl) => some (rem, sp :: tl)

/-- `parse_thermo_file`: leading whitespace, header, zero or more species,
trailing whitespace. -/
def parse_thermo_file (input : List Char) : Option (List Char × ThermoFile) := do
  let (i1, _) ← multispace0 input
  let (i2, header) ← parse_header i1
  let (i3, species) ← many0Species (i2.length + 1) i2
  let (i4, _) ← multispace0 i3
  some (i4, ⟨header, species⟩)

example : parse_header "thermo\n    200.00   1000.00   6000.00  20000.     9/09/04\n".data
    = some ([], ⟨[⟨20000, -2⟩, ⟨100000, -2⟩, ⟨600000, -2⟩, ⟨20000, 0⟩], "9/09/04".data⟩) := by
  decide

example : parse_elements "N   2.00O   2.00".data
    = some ([], [("N".data, ⟨200, -2⟩), ("O".data, ⟨200, -2⟩)]) := by decide

example : parse_temperature_range
    (" 200.0 1000.0 junk\n1.0D0 2.0D0 3.0D0\n4.0D0 5.0D0\n".data)
    = some ([], ⟨⟨2000, -1⟩, ⟨10000, -1⟩,
        [⟨10, -1⟩, ⟨20, -1⟩, ⟨30, -1⟩, DecF.zero, DecF.zero, ⟨40, -1⟩, ⟨50, -1⟩],
        [DecF.zero, DecF.zero]⟩) := by decide

/-! ## Consumption lemmas

Every reader consumes a prefix: its remainder is no longer than its input,
and the strictly-consuming readers make the loops well fuelled. -/

lemma dropWhileLen (p : Char → Bool) (s : List Char) :
    (s.dropWhile p).length ≤ s.length := (List.dropWhile_suffix p).length_le

lemma dropLen (s : List Char) (n : ℕ) : (s.drop n).length ≤ s.length := by
  simp [List.length_drop]

lemma charP_len {c : Char} {s r : List Char} {v : Char}
    (h : charP c s = some (r, v)) : r.length < s.length := by
  cases s with
  | nil => simp [charP] at h
  | cons a t =>
    by_cases hac : a == c
    · simp [charP, hac] at h
      simp [h.1]
    · simp [charP, hac] at h

lemma tagP_len {t s r : List Char} {v : Unit} (h : tagP t s = some (r, v)) :
    r.length ≤ s.length := by
  by_cases hp : t.isPrefixOf s
  · simp [tagP, hp] at h
    rw [← h]
    exact dropLen s t.length
  · simp [tagP, hp] at h

lemma space1_len {s r : List Char} {v : Unit} (h : space1 s = some (r, v)) :
    r.length ≤ s.length := by
  cases s with
  | nil => simp [space1] at h
  | cons a t =>
    by_cases ha : isNomSpace a
    · simp [space1, ha] at h
      rw [← h]
      have := dropWhileLen isNomSpace t
      simp
      omega
    · simp [space1, ha] at h

lemma takeWhile1_len {p : Char → Bool} {s r t : List Char}
    (h : takeWhile1 p s = some (r, t)) : r.length < s.length := by
  by_cases he : (s.takeWhile p).isEmpty
  · simp [takeWhile1, he] at h
  · simp [takeWhile1, he] at h
    have h1 : 1 ≤ (s.takeWhile p).length := by
      cases hq : s.takeWhile p with
      | nil => rw [hq] at he; simp at he
      | cons a t => simp [hq]
    have h2 : (s.takeWhile p).length ≤ s.length := (List.takeWhile_prefix p).length_le
    have h3 : r.length = s.length - (s.takeWhile p).length := by
      rw [← h.1]; simp [List.length_drop]
    omega

lemma digit1_len {s r t : List Char} (h : digit1 s = some (r, t)) :
    r.length < s.length := by
  by_cases he : (s.takeWhile Char.isDigit).isEmpty
  · simp [digit1, he] at h
  · simp [digit1, he] at h
    have h1 : 1 ≤ (s.takeWhile Char.isDigit).length := by
      cases hq : s.takeWhile Char.isDigit with
      | nil => rw [hq] at he; simp at he
      | cons a t2 => simp [hq]
    have h2 : (s.takeWhile Char.isDigit).length ≤ s.length :=
      (List.takeWhile_prefix Char.isDigit).length_le
    have h3 : r.length = s.length - (s.takeWhile Char.isDigit).length := by
      rw [← h.1]
      simp [List.length_drop]
    omega

lemma takeUntilCh_len {c : Char} {s r t : List Char}
    (h : takeUntilCh c s = some (r, t)) : r.length ≤ s.length := by
  by_cases he : (s.drop (s.takeWhile (fun a => a != c)).length).isEmpty
  · simp [takeUntilCh, he] at h
  · simp [takeUntilCh, he] at h
    exact h.1 ▸ dropLen s _

lemma lineEnding_len {s r : List Char} {v : Unit} (h : lineEnding s = some (r, v)) :
    r.length < s.length := by
  unfold lineEnding at h
  split at h
  · simp only [Option.some.injEq, Prod.mk.injEq] at h
    rw [← h.1]
    simp
  · simp only [Option.some.injEq, Prod.mk.injEq] at h
    rw [← h.1]
    simp
    omega
  · exact absurd h (by simp)

lemma optSign_len {s r : List Char} {v : Option Char}
    (h : optSign s = some (r, v)) : r.length ≤ s.length := by
  unfold optSign at h
  split at h
  · simp only [Option.some.injEq, Prod.mk.injEq] at h
    rw [← h.1]
    simp
  · simp only [Option.some.injEq, Prod.mk.injEq] at h
    rw [← h.1]
    simp
  · simp only [Option.some.injEq, Prod.mk.injEq] at h
    rw [← h.1]

lemma mantissaD_len {s r t : List Char} (h : mantissaD s = some (r, t)) :
    r.length ≤ s.length := by
  unfold mantissaD at h
  cases h1 : digit1 s with
  | none => simp [h1] at h
  | some p =>
    obtain ⟨r1, ds⟩ := p
    have hr1 : r1.length < s.length := digit1_len h1
    simp only [h1] at h
    cases h2 : charP '.' r1 with
    | none =>
      simp [h2] at h
      obtain ⟨hr, -⟩ := h
      rw [← hr]
      omega
    | some p2 =>
      obtain ⟨r2, c2⟩ := p2
      have hr2 : r2.length < r1.length := charP_len h2
      simp only [h2] at h
      cases h3 : digit1 r2 with
      | none =>
        simp [h3] at h
        obtain ⟨hr, -⟩ := h
        rw [← hr]
        omega
      | some p3 =>
        obtain ⟨r3, fs⟩ := p3
        have hr3 : r3.length < r2.length := digit1_len h3
        simp [h3] at h
        obtain ⟨hr, -⟩ := h
        rw [← hr]
        omega

lemma parse_scientific_d_len {s r : List Char} {v : DecF}
    (h : parse_scientific_d s = some (r, v)) : r.length ≤ s.length := by
  unfold parse_scientific_d at h
  cases h1 : optSign s with
  | none => simp [h1] at h
  | some p1 =>
    obtain ⟨i1, sgn⟩ := p1
    have l1 : i1.length ≤ s.length := optSign_len h1
    simp only [h1] at h
    cases h2 : mantissaD i1 with
    | none => simp [h2] at h
    | some p2 =>
      obtain ⟨i2, mant⟩ := p2
      have l2 : i2.length ≤ i1.length := mantissaD_len h2
      simp only [h2] at h
      cases h3 : charP 'D' i2 with
      | none => simp [h3] at h
      | some p3 =>
        obtain ⟨i3, c3⟩ := p3
        have l3 : i3.length < i2.length := charP_len h3
        simp only [h3] at h
        cases h4 : optSign i3 with
        | none => simp [h4] at h
        | some p4 =>
          obtain ⟨i4, esgn⟩ := p4
          have l4 : i4.length ≤ i3.length := optSign_len h4
          simp only [h4] at h
          cases h5 : digit1 i4 with
          | none => simp [h5] at h
          | some p5 =>
            obtain ⟨i5, ex⟩ := p5
            have l5 : i5.length < i4.length := digit1_len h5
            simp only [h5] at h
            cases h6 : rustParseF64
                (signChars sgn ++ mant ++ 'E' :: (signChars esgn ++ ex)) with
            | none => rw [h6] at h; simp at h
            | some v6 =>
              rw [h6] at h
              simp at h
              obtain ⟨hr, -⟩ := h
              rw [← hr]
              omega

lemma expTail_len {sgn : Option Char} {mc s2 r t : List Char}
    (h : expTail sgn mc s2 = some (r, t)) : r.length ≤ s2.length := by
  unfold expTail at h
  cases s2 with
  | nil =>
    simp at h
    simp [← h.1]
  | cons c rr =>
    dsimp only at h
    by_cases hce : (c == 'e' || c == 'E') = true
    · rw [if_pos hce] at h
      cases h1 : optSign rr with
      | none => rw [h1] at h; simp at h
      | some p1 =>
        obtain ⟨r2, esgn⟩ := p1
        have l1 : r2.length ≤ rr.length := optSign_len h1
        simp only [h1] at h
        cases h2 : digit1 r2 with
        | none => simp [h2] at h
        | some p2 =>
          obtain ⟨r3, ds⟩ := p2
          have l2 : r3.length < r2.length := digit1_len h2
          simp only [h2] at h
          simp at h
          obtain ⟨hr, -⟩ := h
          rw [← hr]
          simp
          omega
    · rw [if_neg hce] at h
      simp at h
      obtain ⟨hr, -⟩ := h
      rw [← hr]

lemma recognizeFloat_len {s r t : List Char} (h : recognizeFloat s = some (r, t)) :
    r.length ≤ s.length := by
  unfold recognizeFloat at h
  cases h1 : optSign s with
  | none => rw [h1] at h; simp at h
  | some p1 =>
    obtain ⟨s1, sgn⟩ := p1
    have l1 : s1.length ≤ s.length := optSign_len h1
    simp only [h1] at h
    cases h2 : digit1 s1 with
    | some p2 =>
      obtain ⟨r1, ds⟩ := p2
      have l2 : r1.length < s1.length := digit1_len h2
      simp only [h2] at h
      cases h3 : charP '.' r1 with
      | some p3 =>
        obtain ⟨r2, c2⟩ := p3
        have l3 : r2.length < r1.length := charP_len h3
        simp only [h3] at h
        have l4 := expTail_len h
        have l5 : (r2.drop (r2.takeWhile Char.isDigit).length).length ≤ r2.length :=
          dropLen r2 _
        omega
      | none =>
        simp only [h3] at h
        have l4 := expTail_len h
        omega
    | none =>
      simp only [h2] at h
      cases h3 : charP '.' s1 with
      | some p3 =>
        obtain ⟨r2, c2⟩ := p3
        have l3 : r2.length < s1.length := charP_len h3
        simp only [h3] at h
        cases h4 : digit1 r2 with
        | some p4 =>
          obtain ⟨r3, ds⟩ := p4
          have l4 : r3.length < r2.length := digit1_len h4
          simp only [h4] at h
          have l5 := expTail_len h
          omega
        | none => rw [h4] at h; simp at h
      | none => rw [h3] at h; simp at h

lemma nomDouble_len {s r : List Char} {v : DecF} (h : nomDouble s = some (r, v)) :
    r.length ≤ s.length := by
  unfold nomDouble at h
  cases h1 : recognizeFloat s with
  | none => rw [h1] at h; simp at h
  | some p1 =>
    obtain ⟨rest, tok⟩ := p1
    have l1 : rest.length ≤ s.length := recognizeFloat_len h1
    simp only [h1] at h
    cases h2 : rustParseF64 tok with
    | none => simp [h2] at h
    | some v2 =>
      simp only [h2] at h
      simp at h
      obtain ⟨hr, -⟩ := h
      rw [← hr]
      omega

lemma parse_float_len {s r : List Char} {v : DecF} (h : parse_float s = some (r, v)) :
    r.length ≤ s.length := by
  unfold parse_float at h
  cases h1 : parse_scientific_d s with
  | some p1 =>
    rw [h1] at h
    simp at h
    subst h
    exact parse_scientific_d_len h1
  | none =>
    rw [h1] at h
    exact nomDouble_len h

lemma parse_spaced_float_len {s r : List Char} {v : DecF}
    (h : parse_spaced_float s = some (r, v)) : r.length ≤ s.length := by
  unfold parse_spaced_float at h
  cases h1 : parse_float (s.dropWhile isNomSpace) with
  | none => rw [h1] at h; simp at h
  | some p1 =>
    obtain ⟨r1, v1⟩ := p1
    have l1 : r1.length ≤ (s.dropWhile isNomSpace).length := parse_float_len h1
    have l2 := dropWhileLen isNomSpace s
    rw [h1] at h
    simp at h
    obtain ⟨hr, -⟩ := h
    rw [← hr]
    have := dropWhileLen isNomSpace r1
    omega

lemma parse_temperature_range_len {s r : List Char} {tr : TemperatureRange}
    (h : parse_temperature_range s = some (r, tr)) : r.length ≤ s.length := by
  unfold parse_temperature_range at h
  simp only [space0, Option.bind_eq_bind, Option.some_bind] at h
  cases h1 : parse_spaced_float (s.dropWhile isNomSpace) with
  | none => rw [h1] at h; simp at h
  | some p1 =>
    obtain ⟨i2, tLow⟩ := p1
    have l0 := dropWhileLen isNomSpace s
    have l1 : i2.length ≤ (s.dropWhile isNomSpace).length := parse_spaced_float_len h1
    rw [h1] at h
    simp only [Option.some_bind] at h
    cases h2 : parse_spaced_float i2 with
    | none => rw [h2] at h; simp at h
    | some p2 =>
      obtain ⟨i3, tHigh⟩ := p2
      have l2 : i3.length ≤ i2.length := parse_spaced_float_len h2
      rw [h2] at h
      simp only [Option.some_bind] at h
      cases h3 : takeUntilCh '\n' i3 with
      | none => rw [h3] at h; simp at h
      | some p3 =>
        obtain ⟨i4, meta4⟩ := p3
        have l3 : i4.length ≤ i3.length := takeUntilCh_len h3
        rw [h3] at h
        simp only [Option.some_bind] at h
        cases h4 : lineEnding i4 with
        | none => rw [h4] at h; simp at h
        | some p4 =>
          obtain ⟨i5, u4⟩ := p4
          have l4 : i5.length < i4.length := lineEnding_len h4
          rw [h4] at h
          simp only [Option.some_bind] at h
          cases h5 : takeUntilCh '\n' i5 with
          | none => rw [h5] at h; simp at h
          | some p5 =>
            obtain ⟨i6, line1⟩ := p5
            have l5 : i6.length ≤ i5.length := takeUntilCh_len h5
            rw [h5] at h
            simp only [Option.some_bind] at h
            cases h6 : lineEnding i6 with
            | none => rw [h6] at h; simp at h
            | some p6 =>
              obtain ⟨i7, u6⟩ := p6
              have l6 : i7.length < i6.length := lineEnding_len h6
              rw [h6] at h
              simp only [Option.some_bind] at h
              cases h7 : takeUntilCh '\n' i7 with
              | none => rw [h7] at h; simp at h
              | some p7 =>
                obtain ⟨i8, line2⟩ := p7
                have l7 : i8.length ≤ i7.length := takeUntilCh_len h7
                rw [h7] at h
                simp only [Option.some_bind] at h
                cases h8 : lineEnding i8 with
                | none => rw [h8] at h; simp at h
                | some p8 =>
                  obtain ⟨i9, u8⟩ := p8
                  have l8 : i9.length < i8.length := lineEnding_len h8
                  rw [h8] at h
                  simp only [Option.some_bind] at h
                  simp at h
                  obtain ⟨hr, -⟩ := h
                  rw [← hr]
                  omega

lemma parse_species_header_len {s r : List Char}
    {t : List Char × List Char × List (List Char × DecF) × DecF × DecF}
    (h : parse_species_header s = some (r, t)) : r.length < s.length := by
  unfold parse_species_header at h
  cases h1 : takeWhile1 (fun c => !isRustWS c) s with
  | none => rw [h1] at h; simp at h
  | some p1 =>
    obtain ⟨i1, name⟩ := p1
    have l1 : i1.length < s.length := takeWhile1_len h1
    rw [h1] at h
    simp only [Option.bind_eq_bind, Option.some_bind] at h
    cases h2 : space1 i1 with
    | none => rw [h2] at h; simp at h
    | some p2 =>
      obtain ⟨i2, u2⟩ := p2
      have l2 : i2.length ≤ i1.length := space1_len h2
      rw [h2] at h
      simp only [Option.some_bind] at h
      cases h3 : takeUntilCh ' ' i2 with
      | none => rw [h3] at h; simp at h
      | some p3 =>
        obtain ⟨i3, desc⟩ := p3
        have l3 : i3.length ≤ i2.length := takeUntilCh_len h3
        rw [h3] at h
        simp only [Option.some_bind] at h
        cases h4 : space1 i3 with
        | none => rw [h4] at h; simp at h
        | some p4 =>
          obtain ⟨i4, u4⟩ := p4
          have l4 : i4.length ≤ i3.length := space1_len h4
          rw [h4] at h
          simp only [Option.some_bind] at h
          cases h5 : takeUntilCh '\n' i4 with
          | none => rw [h5] at h; simp at h
          | some p5 =>
            obtain ⟨i5, restLine⟩ := p5
            have l5 : i5.length ≤ i4.length := takeUntilCh_len h5
            rw [h5] at h
            simp only [Option.some_bind] at h
            cases h6 : lineEnding i5 with
            | none => rw [h6] at h; simp at h
            | some p6 =>
              obtain ⟨i6, u6⟩ := p6
              have l6 : i6.length < i5.length := lineEnding_len h6
              rw [h6] at h
              simp only [Option.some_bind] at h
              unfold parse_elements at h
              simp only [Option.some_bind] at h
              simp at h
              obtain ⟨hr, -⟩ := h
              rw [← hr]
              omega

lemma tempRangeLoop_len (fuel : ℕ) (s : List Char) :
    (tempRangeLoop fuel s).2.length ≤ s.length := by
  induction fuel generalizing s with
  | zero => simp [tempRangeLoop]
  | succ n ih =>
    unfold tempRangeLoop
    by_cases hstop : speciesStop s
    · simp [hstop]
    · simp only [hstop, Bool.false_eq_true, if_false]
      cases h1 : parse_temperature_range s with
      | none => simp
      | some p1 =>
        obtain ⟨rest, tr⟩ := p1
        have l1 : rest.length ≤ s.length := parse_temperature_range_len h1
        have l2 := ih rest
        simp only []
        omega

lemma parse_species_len {s r : List Char} {sp : Species}
    (h : parse_species s = some (r, sp)) : r.length < s.length := by
  unfold parse_species at h
  cases h1 : parse_species_header s with
  | none => rw [h1] at h; simp at h
  | some p1 =>
    obtain ⟨i1, t⟩ := p1
    have l1 : i1.length < s.length := parse_species_header_len h1
    rw [h1] at h
    simp only [Option.bind_eq_bind, Option.some_bind] at h
    simp at h
    obtain ⟨hr, -⟩ := h
    rw [← hr]
    have := tempRangeLoop_len (i1.length + 1) i1
    omega

lemma many0Species_total (fuel : ℕ) (s : List Char) (hf : s.length < fuel) :
    (many0Species fuel s).isSome := by
  induction fuel generalizing s with
  | zero => omega
  | succ n ih =>
    unfold many0Species
    cases h1 : parse_species s with
    | none => simp
    | some p1 =>
      obtain ⟨r, sp⟩ := p1
      have l1 : r.length < s.length := parse_species_len h1
      have hne : ¬ r.length = s.length := by omega
      simp only [hne, if_false]
      have := ih r (by omega)
      cases h2 : many0Species n r with
      | none => rw [h2] at this; simp at this
      | some p2 => simp

/-! ## Top-level error behaviour -/

lemma parse_thermo_file_none_iff (s : List Char) :
    parse_thermo_file s = none ↔ parse_header (s.dropWhile isNomMulti) = none := by
  unfold parse_thermo_file
  simp only [multispace0, Option.bind_eq_bind, Option.some_bind]
  cases hH : parse_header (s.dropWhile isNomMulti) with
  | none => simp
  | some p =>
    obtain ⟨i2, hd⟩ := p
    simp only [Option.some_bind]
    have htot := many0Species_total (i2.length + 1) i2 (by omega)
    cases hm : many0Species (i2.length + 1) i2 with
    | none => rw [hm] at htot; simp at htot
    | some p2 =>
      obtain ⟨i3, sps⟩ := p2
      simp

lemma parse_header_none_of_no_marker {x : List Char}
    (h : "thermo".data.isPrefixOf x = false) : parse_header x = none := by
  unfold parse_header
  have ht : tagP "thermo".data x = none := by simp [tagP, h]
  rw [ht]
  simp

lemma parse_thermo_file_success {s i2 : List Char} {hd : ThermoHeader}
    (hH : parse_header (s.dropWhile isNomMulti) = some (i2, hd)) :
    ∃ i3 sps, many0Species (i2.length + 1) i2 = some (i3, sps) ∧
      parse_thermo_file s = some (i3.dropWhile isNomMulti, ⟨hd, sps⟩) := by
  have htot := many0Species_total (i2.length + 1) i2 (by omega)
  cases hm : many0Species (i2.length + 1) i2 with
  | none => rw [hm] at htot; simp at htot
  | some p2 =>
    obtain ⟨i3, sps⟩ := p2
    refine ⟨i3, sps, rfl, ?_⟩
    unfold parse_thermo_file
    simp only [multispace0, Option.bind_eq_bind, Option.some_bind]
    rw [hH]
    simp only [Option.some_bind]
    rw [hm]
    simp

/-- **C2**: `parse_thermo_file` fails exactly when the Header Reader fails on
the input after the leading-whitespace skip; in particular an input whose
whitespace-skipped remainder does not start with the `thermo` marker fails
structurally.  Once the header parses, the species loop (nom `many0`) and any
trailing content never cause an error: the species parsed so far are
returned and trailing content is left to the final whitespace skip. -/
theorem thermoFile_fails_iff_header_fails :
    ∀ s : List Char,
      (parse_thermo_file s = none ↔ parse_header (s.dropWhile isNomMulti) = none) ∧
      ("thermo".data.isPrefixOf (s.dropWhile isNomMulti) = false →
        parse_thermo_file s = none) ∧
      (∀ i2 hd, parse_header (s.dropWhile isNomMulti) = some (i2, hd) →
        ∃ i3 sps, many0Species (i2.length + 1) i2 = some (i3, sps) ∧
          parse_thermo_file s = some (i3.dropWhile isNomMulti, ⟨hd, sps⟩)) :=
  fun s =>
    ⟨parse_thermo_file_none_iff s,
     fun h => (parse_thermo_file_none_iff s).mpr (parse_header_none_of_no_marker h),
     fun _ _ hH => parse_thermo_file_success hH⟩

/-! ## `take_until` characterization -/

/-- The text after the first occurrence of `c` (used to step from one
physical line to the next when `c = '\n'`). -/
def afterCh (c : Char) (s : List Char) : List Char :=
  (s.dropWhile (fun a => a != c)).drop 1

lemma drop_takeWhile (p : Char → Bool) (x : List Char) :
    x.drop (x.takeWhile p).length = x.dropWhile p := by
  induction x with
  | nil => rfl
  | cons a t ih =>
    by_cases hp : p a
    · simp [List.takeWhile_cons, List.dropWhile_cons, hp, ih]
    · simp [List.takeWhile_cons, List.dropWhile_cons, hp]

lemma dropWhile_of_contains {c : Char} {x : List Char} (h : x.contains c = true) :
    x.dropWhile (fun a => a != c) = c :: afterCh c x := by
  unfold afterCh
  induction x with
  | nil => simp at h
  | cons a t ih =>
    by_cases hac : a = c
    · subst hac
      simp [List.dropWhile_cons]
    · have hac2 : (a != c) = true := by simp [hac]
      have hct : t.contains c = true := by
        simp [List.contains_cons] at h
        rcases h with h | h
        · exact absurd h.symm hac
        · simpa using h
      simp only [List.dropWhile_cons, hac2, if_true]
      exact ih hct

lemma dropWhile_of_not_contains {c : Char} {x : List Char} (h : x.contains c = false) :
    x.dropWhile (fun a => a != c) = [] := by
  induction x with
  | nil => rfl
  | cons a t ih =>
    simp [List.contains_cons] at h
    obtain ⟨h1, h2⟩ := h
    have : (a != c) = true := by simp; exact fun hh => h1 hh.symm
    simp [List.dropWhile_cons, this, ih (by simpa using h2)]

lemma takeUntilCh_eq_some {c : Char} {x : List Char} (h : x.contains c = true) :
    takeUntilCh c x
      = some (c :: afterCh c x, x.takeWhile (fun a => a != c)) := by
  unfold takeUntilCh
  simp only [drop_takeWhile]
  rw [dropWhile_of_contains h]
  simp

lemma takeUntilCh_eq_none {c : Char} {x : List Char} (h : x.contains c = false) :
    takeUntilCh c x = none := by
  unfold takeUntilCh
  simp only [drop_takeWhile]
  rw [dropWhile_of_not_contains h]
  simp

lemma lineEnding_newline (t : List Char) : lineEnding ('\n' :: t) = some (t, ()) := rfl

/-! ## Temperature-Range Reader: failure characterization (spec §4.5) -/

/-- Spec-side: the Temperature-Range Reader's structural conditions — line 1's
two range bounds decode, and each of the 3 lines has a line terminator. -/
def tempRangeStructOK (s : List Char) : Bool :=
  match parse_spaced_float (s.dropWhile isNomSpace) with
  | none => false
  | some (i2, _) =>
    match parse_spaced_float i2 with
    | none => false
    | some (i3, _) =>
      i3.contains '\n' && (afterCh '\n' i3).contains '\n' &&
        (afterCh '\n' (afterCh '\n' i3)).contains '\n'

lemma parse_temperature_range_none_iff (s : List Char) :
    parse_temperature_range s = none ↔ tempRangeStructOK s = false := by
  unfold parse_temperature_range tempRangeStructOK
  simp only [space0, Option.bind_eq_bind, Option.some_bind]
  cases h1 : parse_spaced_float (s.dropWhile isNomSpace) with
  | none => simp
  | some p1 =>
    obtain ⟨i2, tLow⟩ := p1
    simp only [Option.some_bind]
    cases h2 : parse_spaced_float i2 with
    | none => simp
    | some p2 =>
      obtain ⟨i3, tHigh⟩ := p2
      simp only [Option.some_bind]
      by_cases hc1 : i3.contains '\n'
      · rw [takeUntilCh_eq_some hc1]
        simp only [Option.some_bind, lineEnding_newline]
        by_cases hc2 : (afterCh '\n' i3).contains '\n'
        · rw [takeUntilCh_eq_some hc2]
          simp only [Option.some_bind, lineEnding_newline]
          by_cases hc3 : (afterCh '\n' (afterCh '\n' i3)).contains '\n'
          · rw [takeUntilCh_eq_some hc3]
            simp only [Option.some_bind, lineEnding_newline, hc1, hc2, hc3]
            simp
          · have h3f : (afterCh '\n' (afterCh '\n' i3)).contains '\n' = false := by
              simpa using hc3
            rw [takeUntilCh_eq_none h3f]
            simp only [hc1, hc2, h3f]
            simp
        · have h2f : (afterCh '\n' i3).contains '\n' = false := by simpa using hc2
          rw [takeUntilCh_eq_none h2f]
          simp only [hc1, h2f]
          simp
      · have h1f : i3.contains '\n' = false := by simpa using hc1
        rw [takeUntilCh_eq_none h1f]
        simp only [h1f]
        simp

/-- **C3**: the Temperature-Range Reader fails exactly when line 1's two range
bounds cannot be decoded or one of the 3 lines has no line terminator;
coefficient tokens that fail to decode leave their slot at `0.0` — in the
example block, line 2 has 3 decodable tokens, so coefficient slots 0–2 hold
the decoded values and slots 3–4 stay `0.0`. -/
theorem tempRange_fail_only_structural :
    (∀ s : List Char,
      parse_temperature_range s = none ↔ tempRangeStructOK s = false) ∧
    parse_temperature_range
        (" 200.0 1000.0 junk\n1.0D0 2.0D0 3.0D0\n4.0D0 5.0D0\n".data)
      = some ([], ⟨⟨2000, -1⟩, ⟨10000, -1⟩,
          [⟨10, -1⟩, ⟨20, -1⟩, ⟨30, -1⟩, DecF.zero, DecF.zero, ⟨40, -1⟩, ⟨50, -1⟩],
          [DecF.zero, DecF.zero]⟩) ∧
    DecF.toQ DecF.zero = 0 :=
  ⟨parse_temperature_range_none_iff, by decide, by simp [DecF.toQ, DecF.zero]⟩

/-! ## Header example (spec §8) -/

/-- **C5**: the spec's header example parses to the four breakpoints
`[200, 1000, 6000, 20000]` and date `"9/09/04"`. -/
theorem header_example_parse :
    parse_header "thermo\n    200.00   1000.00   6000.00  20000.     9/09/04\n".data
      = some ([], ⟨[⟨20000, -2⟩, ⟨100000, -2⟩, ⟨600000, -2⟩, ⟨20000, 0⟩], "9/09/04".data⟩) ∧
    ([(⟨20000, -2⟩ : DecF), ⟨100000, -2⟩, ⟨600000, -2⟩, ⟨20000, 0⟩]).map DecF.toQ
      = [200, 1000, 6000, 20000] := by
  refine ⟨by decide, ?_⟩
  have e1 : DecF.toQ ⟨20000, -2⟩ = 200 := by
    rw [show ((-2 : ℤ)) = -((2 : ℕ) : ℤ) by norm_num, DecF.toQ_mk_neg]
    norm_num
  have e2 : DecF.toQ ⟨100000, -2⟩ = 1000 := by
    rw [show ((-2 : ℤ)) = -((2 : ℕ) : ℤ) by norm_num, DecF.toQ_mk_neg]
    norm_num
  have e3 : DecF.toQ ⟨600000, -2⟩ = 6000 := by
    rw [show ((-2 : ℤ)) = -((2 : ℕ) : ℤ) by norm_num, DecF.toQ_mk_neg]
    norm_num
  have e4 : DecF.toQ ⟨20000, 0⟩ = 20000 := by
    rw [show ((0 : ℤ)) = ((0 : ℕ) : ℤ) by norm_num, DecF.toQ_mk_coe]
    norm_num
  simp [e1, e2, e3, e4]

/-! ## Element-Composition Reader: characterization (spec §4.3) -/

/-- One symbol+count step of the `parse_elements` loop: skip horizontal
whitespace, take a maximal alphabetic run, then a spaced float. -/
def elementStep (remaining : List Char) :
    Option (List Char × List Char × DecF) :=
  match takeWhile1 (fun c => c.isAlpha) (remaining.dropWhile isNomSpace) with
  | none => none
  | some (rest2, element) =>
    match parse_spaced_float rest2 with
    | none => none
    | some (rest3, count) => some (rest3, element, count)

lemma elementStep_len {s rest3 element : List Char} {count : DecF}
    (h : elementStep s = some (rest3, element, count)) : rest3.length < s.length := by
  unfold elementStep at h
  cases h1 : takeWhile1 (fun c => c.isAlpha) (s.dropWhile isNomSpace) with
  | none => rw [h1] at h; simp at h
  | some p1 =>
    obtain ⟨rest2, el⟩ := p1
    have l1 : rest2.length < (s.dropWhile isNomSpace).length := takeWhile1_len h1
    have l0 := dropWhileLen isNomSpace s
    simp only [h1] at h
    cases h2 : parse_spaced_float rest2 with
    | none => simp [h2] at h
    | some p2 =>
      obtain ⟨r3, cnt⟩ := p2
      have l2 : r3.length ≤ rest2.length := parse_spaced_float_len h2
      simp only [h2] at h
      simp at h
      obtain ⟨hr, -⟩ := h
      rw [← hr]
      omega

lemma parse_elementsAux_fuel :
    ∀ fuel1 fuel2 s, s.length < fuel1 → s.length < fuel2 →
      parse_elementsAux fuel1 s = parse_elementsAux fuel2 s := by
  intro fuel1
  induction fuel1 with
  | zero => intro fuel2 s h1 h2; omega
  | succ n ih =>
    intro fuel2 s h1 h2
    cases fuel2 with
    | zero => omega
    | succ m =>
      unfold parse_elementsAux
      by_cases he : s.isEmpty
      · simp [he]
      · simp only [he, Bool.false_eq_true, if_false]
        by_cases hr : (s.dropWhile isNomSpace).isEmpty
        · simp [hr]
        · simp only [hr, Bool.false_eq_true, if_false]
          cases h3 : takeWhile1 (fun c => c.isAlpha) (s.dropWhile isNomSpace) with
          | none => rfl
          | some p =>
            obtain ⟨rest2, element⟩ := p
            simp only []
            have l1 : rest2.length < (s.dropWhile isNomSpace).length := takeWhile1_len h3
            have l0 := dropWhileLen isNomSpace s
            cases h4 : parse_spaced_float rest2 with
            | none => rfl
            | some p2 =>
              obtain ⟨rest3, count⟩ := p2
              simp only []
              have l2 : rest3.length ≤ rest2.length := parse_spaced_float_len h4
              rw [ih m rest3 (by omega) (by omega)]

lemma parse_elements_of_step_none {s : List Char} (h : elementStep s = none) :
    parse_elements s = some (s, []) := by
  unfold parse_elements parse_elementsAux
  by_cases he : s.isEmpty
  · have : s = [] := by simpa [List.isEmpty_iff] using he
    simp [he, this]
  · simp only [he, Bool.false_eq_true, if_false]
    unfold elementStep at h
    cases h1 : takeWhile1 (fun c => c.isAlpha) (s.dropWhile isNomSpace) with
    | none => simp [h1]
    | some p1 =>
      obtain ⟨rest2, el⟩ := p1
      simp only [h1] at h
      cases h2 : parse_spaced_float rest2 with
      | none => simp [h1, h2]
      | some p2 =>
        obtain ⟨r3, cnt⟩ := p2
        simp [h2] at h

lemma parse_elements_of_step_some {s rest3 element : List Char} {count : DecF}
    (hstep : elementStep s = some (rest3, element, count)) :
    ∀ rem pairs, parse_elements rest3 = some (rem, pairs) →
      parse_elements s = some (rem, (element, count) :: pairs) := by
  intro rem pairs hrec
  have hlt : rest3.length < s.length := elementStep_len hstep
  have hne : ¬ s.isEmpty := by
    cases s with
    | nil => simp [elementStep, takeWhile1] at hstep
    | cons a t => simp
  unfold elementStep at hstep
  unfold parse_elements parse_elementsAux
  simp only [hne, Bool.false_eq_true, if_false]
  cases h1 : takeWhile1 (fun c => c.isAlpha) (s.dropWhile isNomSpace) with
  | none => rw [h1] at hstep; simp at hstep
  | some p1 =>
    obtain ⟨rest2, el⟩ := p1
    simp only [h1] at hstep
    have hrne : ¬ (s.dropWhile isNomSpace).isEmpty := by
      cases hq : s.dropWhile isNomSpace with
      | nil => rw [hq] at h1; simp [takeWhile1] at h1
      | cons a t => simp
    simp only [hrne, Bool.false_eq_true, if_false]
    cases h2 : parse_spaced_float rest2 with
    | none => simp [h2] at hstep
    | some p2 =>
      obtain ⟨r3, cnt⟩ := p2
      simp only [h2] at hstep
      simp at hstep
      obtain ⟨e1, e2, e3⟩ := hstep
      subst e1
      subst e2
      subst e3
      have hfuel : parse_elementsAux s.length r3
          = parse_elementsAux (r3.length + 1) r3 :=
        parse_elementsAux_fuel s.length (r3.length + 1) r3 (by omega) (by omega)
      unfold parse_elements at hrec
      simp at hrec
      obtain ⟨hp, hr⟩ := hrec
      simp [hfuel, hp, hr]

/-- **C7**: `parse_elements` on the spec's fragment yields exactly
`[("N", 2.00), ("O", 2.00)]`; in general it never errors, and when the
symbol or count step fails it returns the pairs accumulated so far together
with the unconsumed remainder (from before this iteration's whitespace
skip). -/
theorem elements_example_and_termination :
    (parse_elements "N   2.00O   2.00".data
      = some ([], [("N".data, ⟨200, -2⟩), ("O".data, ⟨200, -2⟩)])) ∧
    DecF.toQ ⟨200, -2⟩ = 2 ∧
    (∀ s : List Char, ∃ rem pairs, parse_elements s = some (rem, pairs)) ∧
    (∀ s : List Char, elementStep s = none → parse_elements s = some (s, [])) ∧
    (∀ (s rest3 element : List Char) (count : DecF),
      elementStep s = some (rest3, element, count) →
      ∀ rem pairs, parse_elements rest3 = some (rem, pairs) →
        parse_elements s = some (rem, (element, count) :: pairs)) := by
  refine ⟨by decide, ?_, ?_, ?_, ?_⟩
  · rw [show ((-2 : ℤ)) = -((2 : ℕ) : ℤ) by norm_num, DecF.toQ_mk_neg]
    norm_num
  · intro s
    exact ⟨_, _, rfl⟩
  · intro s h
    exact parse_elements_of_step_none h
  · intro s rest3 element count hstep
    exact parse_elements_of_step_some hstep

/-! ## Line 3 of a temperature-range block: positional extraction (spec §4.5) -/

/-- Claim-side: the token positions of line 3 read as coefficient sources —
the `enumerate` over `take 2` reads positions `0 .. min 2 len - 1`. -/
def line3CoeffSrc (parts : List (List Char)) : List ℕ :=
  List.range (min 2 parts.length)

/-- Claim-side: the token positions of line 3 read as integration-constant
sources — the `enumerate` over `skip (len - 2)` reads positions `len - 2`
and `len - 1`, and only when `len ≥ 4`. -/
def line3ConstSrc (parts : List (List Char)) : List ℕ :=
  if parts.length ≥ 4 then [parts.length - 2, parts.length - 1] else []

/-- **C4 counterexample**: the claim's overlap clause is false — no token
position is ever read both as a coefficient source and as an
integration-constant source, for any line-3 token list. -/
theorem line3_no_token_overlap :
    ¬ ∃ (parts : List (List Char)) (i : ℕ),
        i ∈ line3CoeffSrc parts ∧ i ∈ line3ConstSrc parts := by
  rintro ⟨parts, i, hc, hk⟩
  unfold line3CoeffSrc at hc
  unfold line3ConstSrc at hk
  simp [List.mem_range] at hc
  by_cases h4 : parts.length ≥ 4
  · rw [if_pos h4] at hk
    simp at hk
    rcases hk with hk | hk <;> omega
  · rw [if_neg h4] at hk
    simp at hk

/-- **C4 (amended)**: on line 3 the first 2 tokens are decoded into
coefficient slots 5–6, and whenever the line has at least 4 tokens the last
2 tokens are decoded into the 2 integration-constant slots; but the ≥4-token
guard makes the coefficient-source and constant-source positions disjoint,
so no token is ever decoded into both. -/
theorem line3_positional_extraction :
    (∀ (cs : List DecF) (p0 p1 : List Char) (rest : List (List Char)),
      line3Coeffs cs (p0 :: p1 :: rest) = setIfD (setIfD cs 5 p0) 6 p1) ∧
    (∀ parts : List (List Char), 4 ≤ parts.length →
      line3Consts parts
        = setIfD (setIfD (List.replicate 2 DecF.zero) 0
            (getTok parts (parts.length - 2))) 1 (getTok parts (parts.length - 1))) ∧
    (∀ (parts : List (List Char)) (i : ℕ),
      i ∈ line3CoeffSrc parts → i ∉ line3ConstSrc parts) := by
  refine ⟨?_, ?_, ?_⟩
  · intro cs p0 p1 rest
    rfl
  · intro parts h4
    have h2 : parts.length - 2 < parts.length := by omega
    have h1 : parts.length - 1 < parts.length := by omega
    have hdrop : parts.drop (parts.length - 2)
        = [getTok parts (parts.length - 2), getTok parts (parts.length - 1)] := by
      rw [List.drop_eq_getElem_cons h2]
      rw [show parts.length - 2 + 1 = parts.length - 1 by omega]
      rw [List.drop_eq_getElem_cons h1]
      rw [show parts.length - 1 + 1 = parts.length by omega]
      rw [List.drop_length]
      unfold getTok
      rw [List.getD_eq_getElem _ _ h2, List.getD_eq_getElem _ _ h1]
    unfold line3Consts
    rw [if_pos h4, hdrop]
    rfl
  · intro parts i hc
    intro hk
    unfold line3CoeffSrc at hc
    unfold line3ConstSrc at hk
    simp [List.mem_range] at hc
    by_cases h4 : parts.length ≥ 4
    · rw [if_pos h4] at hk
      simp at hk
      rcases hk with hk | hk <;> omega
    · rw [if_neg h4] at hk
      simp at hk

/-! ## Species-Record Reader: header-line characterization (spec §4.4) -/

lemma takeWhile1_parts {p : Char → Bool} {s r t : List Char}
    (h : takeWhile1 p s = some (r, t)) : r = s.dropWhile p ∧ t = s.takeWhile p := by
  by_cases he : (s.takeWhile p).isEmpty
  · simp [takeWhile1, he] at h
  · simp [takeWhile1, he] at h
    refine ⟨?_, h.2.symm⟩
    rw [← h.1]
    exact drop_takeWhile p s

lemma space1_parts {s r : List Char} {u : Unit} (h : space1 s = some (r, u)) :
    r = s.dropWhile isNomSpace := by
  cases s with
  | nil => simp [space1] at h
  | cons a t =>
    by_cases ha : isNomSpace a
    · simp [space1, ha] at h
      rw [← h]
      simp [List.dropWhile_cons, ha]
    · simp [space1, ha] at h

/-- The trailing remainder of a species header line, as the Species-Record
Reader computes it: drop the name (maximal non-whitespace run), the
separating spaces, the description (up to the first `' '`) and the spaces
after it; keep the text up to the line terminator. -/
def speciesRestLine (s : List Char) : List Char :=
  ((afterCh ' ' ((s.dropWhile (fun c => !isRustWS c)).dropWhile isNomSpace)).dropWhile
      isNomSpace).takeWhile (fun c => c != '\n')

lemma parse_species_header_shape {s r name desc : List Char}
    {elems : List (List Char × DecF)} {mw hof : DecF}
    (h : parse_species_header s = some (r, (name, desc, elems, mw, hof))) :
    name = s.takeWhile (fun c => !isRustWS c) ∧
    desc = ((s.dropWhile (fun c => !isRustWS c)).dropWhile isNomSpace).takeWhile
        (fun c => c != ' ') ∧
    ∃ remaining, parse_elements (speciesRestLine s) = some (remaining, elems) ∧
      mw = (if 2 ≤ (splitWs (rustTrim remaining)).length then
              (rustParseF64 (getTok (splitWs (rustTrim remaining))
                ((splitWs (rustTrim remaining)).length - 2))).getD DecF.zero
            else DecF.zero) ∧
      hof = (if 1 ≤ (splitWs (rustTrim remaining)).length then
              (rustParseF64 (getTok (splitWs (rustTrim remaining))
                ((splitWs (rustTrim remaining)).length - 1))).getD DecF.zero
            else DecF.zero) := by
  unfold parse_species_header at h
  cases h1 : takeWhile1 (fun c => !isRustWS c) s with
  | none => rw [h1] at h; simp at h
  | some p1 =>
    obtain ⟨i1, name1⟩ := p1
    obtain ⟨hi1, hname1⟩ := takeWhile1_parts h1
    simp only [h1, Option.bind_eq_bind, Option.some_bind] at h
    cases h2 : space1 i1 with
    | none => rw [h2] at h; simp at h
    | some p2 =>
      obtain ⟨i2, u2⟩ := p2
      have hi2 : i2 = i1.dropWhile isNomSpace := space1_parts h2
      simp only [h2, Option.some_bind] at h
      cases hc3 : i2.contains ' ' with
      | false => rw [takeUntilCh_eq_none hc3] at h; simp at h
      | true =>
        rw [takeUntilCh_eq_some hc3] at h
        simp only [Option.some_bind] at h
        have h4 : space1 (' ' :: afterCh ' ' i2)
            = some ((afterCh ' ' i2).dropWhile isNomSpace, ()) := by
          simp [space1, isNomSpace, List.dropWhile_cons]
        rw [h4] at h
        simp only [Option.some_bind] at h
        cases hc5 : ((afterCh ' ' i2).dropWhile isNomSpace).contains '\n' with
        | false => rw [takeUntilCh_eq_none hc5] at h; simp at h
        | true =>
          rw [takeUntilCh_eq_some hc5] at h
          simp only [Option.some_bind, lineEnding_newline] at h
          obtain ⟨rem0, els0, hpe⟩ :
              ∃ rem els,
                parse_elements (((afterCh ' ' i2).dropWhile isNomSpace).takeWhile
                  (fun a => a != '\n')) = some (rem, els) := ⟨_, _, rfl⟩
          rw [hpe] at h
          simp only [Option.some_bind] at h
          simp at h
          obtain ⟨-, hn, hd, he, hm, hh⟩ := h
          have hrest : speciesRestLine s
              = ((afterCh ' ' i2).dropWhile isNomSpace).takeWhile (fun a => a != '\n') := by
            unfold speciesRestLine
            rw [← hi1, ← hi2]
          refine ⟨?_, ?_, rem0, ?_, ?_, ?_⟩
          · rw [← hn, hname1]
          · rw [← hd, hi2, hi1]
          · rw [hrest, hpe, he]
          · rw [← hm]
          · rw [← hh]

/-- Claim-side (C8's wording): the text from after the whitespace following
the name up to the first whitespace-delimited boundary. -/
def claimDescription (s : List Char) : List Char :=
  ((s.dropWhile (fun c => !isRustWS c)).dropWhile isRustWS).takeWhile (fun c => !isRustWS c)

/-- **C8 counterexample**: on a header line whose description contains a tab,
the parsed description is `"A\tB"` (text up to the first `' '`), not the
text up to the first whitespace boundary, which is `"A"`. -/
theorem description_keeps_tab_after_boundary :
    (parse_species_header "SP A\tB C 1.0 2.0\nT".data).map (fun p => p.2.2.1)
        = some "A\tB".data ∧
    claimDescription "SP A\tB C 1.0 2.0\nT".data = "A".data ∧
    ("A\tB".data ≠ "A".data) :=
  ⟨by rfl, by rfl, by decide⟩

/-- **C8 (amended)**: the description field is exactly the text from after the
space/tab run following the name up to the first space character `' '` —
not up to the first whitespace boundary in general (a tab does not end it). -/
theorem species_description_stops_at_space :
    ∀ (s r name desc : List Char) (elems : List (List Char × DecF)) (mw hof : DecF),
      parse_species_header s = some (r, (name, desc, elems, mw, hof)) →
      desc = ((s.dropWhile (fun c => !isRustWS c)).dropWhile isNomSpace).takeWhile
          (fun c => c != ' ') :=
  fun _ _ _ _ _ _ _ h => (parse_species_header_shape h).2.1

theorem species_description_stops_at_space_witness :
    "A\tB".data
      = ((("SP A\tB C 1.0 2.0\nT".data).dropWhile (fun c => !isRustWS c)).dropWhile
          isNomSpace).takeWhile (fun c => c != ' ') :=
  species_description_stops_at_space "SP A\tB C 1.0 2.0\nT".data "T".data "SP".data
    "A\tB".data [("C".data, ⟨10, -1⟩)] DecF.zero ⟨20, -1⟩ (by rfl)

/-- **C6**: after element extraction the trailing remainder of the species
header line is whitespace-tokenized; whenever it has at least two tokens,
the second-to-last decodes (Rust `str::parse::<f64>`) into
`molecular_weight` and the last into `heat_of_formation`; a token that
fails to decode leaves its field at `0.0`, and the record parses
successfully regardless. -/
theorem species_last_two_tokens :
    ∀ (s r name desc : List Char) (elems : List (List Char × DecF)) (mw hof : DecF),
      parse_species_header s = some (r, (name, desc, elems, mw, hof)) →
      ∃ remaining, parse_elements (speciesRestLine s) = some (remaining, elems) ∧
        (2 ≤ (splitWs (rustTrim remaining)).length →
          mw = (rustParseF64 (getTok (splitWs (rustTrim remaining))
                  ((splitWs (rustTrim remaining)).length - 2))).getD DecF.zero ∧
          hof = (rustParseF64 (getTok (splitWs (rustTrim remaining))
                  ((splitWs (rustTrim remaining)).length - 1))).getD DecF.zero ∧
          (rustParseF64 (getTok (splitWs (rustTrim remaining))
              ((splitWs (rustTrim remaining)).length - 2)) = none → mw = DecF.zero) ∧
          (rustParseF64 (getTok (splitWs (rustTrim remaining))
              ((splitWs (rustTrim remaining)).length - 1)) = none → hof = DecF.zero)) := by
  intro s r name desc elems mw hof h
  obtain ⟨-, -, remaining, hpe, hm, hh⟩ := parse_species_header_shape h
  refine ⟨remaining, hpe, ?_⟩
  intro h2
  have h1 : 1 ≤ (splitWs (rustTrim remaining)).length := by omega
  rw [hm, if_pos h2, hh, if_pos h1]
  refine ⟨rfl, rfl, ?_, ?_⟩
  · intro hn
    rw [hn]
    rfl
  · intro hn
    rw [hn]
    rfl

theorem species_last_two_tokens_witness :
    ∃ remaining,
      parse_elements (speciesRestLine "SP D N 2.0 1.2.3x 5.0\nT".data)
        = some (remaining, [("N".data, ⟨20, -1⟩)]) ∧
      (2 ≤ (splitWs (rustTrim remaining)).length →
        DecF.zero = (rustParseF64 (getTok (splitWs (rustTrim remaining))
                ((splitWs (rustTrim remaining)).length - 2))).getD DecF.zero ∧
        (⟨50, -1⟩ : DecF) = (rustParseF64 (getTok (splitWs (rustTrim remaining))
                ((splitWs (rustTrim remaining)).length - 1))).getD DecF.zero ∧
        (rustParseF64 (getTok (splitWs (rustTrim remaining))
            ((splitWs (rustTrim remaining)).length - 2)) = none → DecF.zero = DecF.zero) ∧
        (rustParseF64 (getTok (splitWs (rustTrim remaining))
            ((splitWs (rustTrim remaining)).length - 1)) = none →
          (⟨50, -1⟩ : DecF) = DecF.zero)) :=
  species_last_two_tokens "SP D N 2.0 1.2.3x 5.0\nT".data "T".data "SP".data "D".data
    [("N".data, ⟨20, -1⟩)] DecF.zero ⟨50, -1⟩ (by rfl)

/-- **C10**: when the trailing remainder tokenizes to exactly one token, that
token is treated as the last token: `heat_of_formation` gets its decoded
value (or `0.0` on decode failure) and `molecular_weight` is `0.0`. -/
theorem species_single_token_is_heat :
    ∀ (s r name desc : List Char) (elems : List (List Char × DecF)) (mw hof : DecF)
      (remaining : List Char),
      parse_species_header s = some (r, (name, desc, elems, mw, hof)) →
      parse_elements (speciesRestLine s) = some (remaining, elems) →
      (splitWs (rustTrim remaining)).length = 1 →
      mw = DecF.zero ∧
      hof = (rustParseF64 (getTok (splitWs (rustTrim remaining)) 0)).getD DecF.zero := by
  intro s r name desc elems mw hof remaining h hpe h1
  obtain ⟨-, -, remaining2, hpe2, hm, hh⟩ := parse_species_header_shape h
  rw [hpe] at hpe2
  have hrem : remaining2 = remaining := by
    simp at hpe2
    exact hpe2.symm
  subst hrem
  constructor
  · rw [hm, if_neg (by omega)]
  · rw [hh, if_pos (by omega), h1]

theorem species_single_token_is_heat_witness :
    DecF.zero = DecF.zero ∧
    (⟨777, -1⟩ : DecF)
      = (rustParseF64 (getTok (splitWs (rustTrim "77.7".data)) 0)).getD DecF.zero :=
  species_single_token_is_heat "SP A N 2.0 77.7\nX".data "X".data "SP".data "A".data
    [("N".data, ⟨20, -1⟩)] DecF.zero ⟨777, -1⟩ "77.7".data (by rfl) (by rfl)
    (by rfl)

/-! ## Header Reader: failure conditions (spec §4.2) -/

/-- The header's number scan: marker, whitespace, then four successive
spaced-float parses (the reader finds numbers by sequential prefix parsing,
not by whitespace tokens). -/
def headerFourFloats (s : List Char) : Option (List Char) := do
  let (i1, _) ← tagP "thermo".data s
  let (i2, _) ← multispace0 i1
  let (i3, _) ← parse_spaced_float i2
  let (i4, _) ← parse_spaced_float i3
  let (i5, _) ← parse_spaced_float i4
  let (i6, _) ← parse_spaced_float i5
  some i6

/-- Claim-side (C9's wording): the number of whitespace-delimited tokens after
the `thermo` marker that fully decode as floats. -/
def headerNumberTokenCount (s : List Char) : ℕ :=
  ((splitWs (s.drop "thermo".data.length)).filter
      (fun t => (rustParseF64 t).isSome)).length

/-- **C9 counterexample**: on `"thermo 1 2 3 4junk\n"` only 3 whitespace-
delimited tokens after the marker are numbers, yet the Header Reader
succeeds: its fourth number is the prefix `4` of the token `4junk`. -/
theorem header_succeeds_with_three_number_tokens :
    (parse_header "thermo 1 2 3 4junk\n".data).isSome = true ∧
    headerNumberTokenCount "thermo 1 2 3 4junk\n".data = 3 :=
  ⟨by rfl, by rfl⟩

lemma headerFourFloats_of_parse_header {s : List Char} {x : List Char × ThermoHeader}
    (h : parse_header s = some x) : (headerFourFloats s).isSome = true := by
  unfold parse_header at h
  unfold headerFourFloats
  have hdata : "thermo".data = ['t', 'h', 'e', 'r', 'm', 'o'] := rfl
  rw [hdata]
  cases h1 : tagP ['t', 'h', 'e', 'r', 'm', 'o'] s with
  | none => rw [h1] at h; simp at h
  | some p1 =>
    obtain ⟨i1, u1⟩ := p1
    rw [h1] at h
    simp only [Option.bind_eq_bind, Option.some_bind, multispace0] at h ⊢
    cases h2 : parse_spaced_float (i1.dropWhile isNomMulti) with
    | none => rw [h2] at h; simp at h
    | some p2 =>
      obtain ⟨i3, t1⟩ := p2
      rw [h2] at h
      simp only [Option.some_bind] at h ⊢
      cases h3 : parse_spaced_float i3 with
      | none => rw [h3] at h; simp at h
      | some p3 =>
        obtain ⟨i4, t2⟩ := p3
        rw [h3] at h
        simp only [Option.some_bind] at h ⊢
        cases h4 : parse_spaced_float i4 with
        | none => rw [h4] at h; simp at h
        | some p4 =>
          obtain ⟨i5, t3⟩ := p4
          rw [h4] at h
          simp only [Option.some_bind] at h ⊢
          cases h5 : parse_spaced_float i5 with
          | none => rw [h5] at h; simp at h
          | some p5 =>
            obtain ⟨i6, t4⟩ := p5
            simp

/-- **C9 (amended)**: the Header Reader fails for every input in which the
`thermo` marker is absent (not a prefix), and for every input on which four
successive spaced-float parses after the marker and whitespace cannot all
succeed.  (It does not count whitespace-delimited number tokens: a single
token can supply a number as a strict prefix, or several numbers.) -/
theorem header_fail_conditions :
    ∀ s : List Char,
      ("thermo".data.isPrefixOf s = false → parse_header s = none) ∧
      (headerFourFloats s = none → parse_header s = none) := by
  intro s
  refine ⟨parse_header_none_of_no_marker, ?_⟩
  intro h4
  cases hph : parse_header s with
  | none => rfl
  | some x =>
    have := headerFourFloats_of_parse_header hph
    rw [h4] at this
    simp at this

/-! ## Numeric Literal Reader: Dialect A decodes as `D`→`E` substitution -/

/-- Claim-side: the `D`→`E` substitution on one character. -/
def substDE (c : Char) : Char := if c == 'D' then 'E' else c

lemma substDE_digit {c : Char} (h : c.isDigit = true) : substDE c = c := by
  unfold substDE
  have hD : ('D').isDigit = false := by decide
  have : (c == 'D') = false := by
    cases hq : c == 'D'
    · rfl
    · rw [eq_of_beq hq] at h
      rw [h] at hD
      exact absurd hD (by simp)
  rw [this]
  simp

lemma map_substDE_digits {l : List Char} (h : l.all Char.isDigit = true) :
    l.map substDE = l := by
  induction l with
  | nil => rfl
  | cons a t ih =>
    rw [List.all_cons, Bool.and_eq_true] at h
    simp [substDE_digit h.1, ih h.2]

lemma takeWhile_append_all {p : Char → Bool} {ds : List Char} (r : List Char)
    (h : ds.all p = true) : (ds ++ r).takeWhile p = ds ++ r.takeWhile p := by
  induction ds with
  | nil => simp
  | cons a t ih =>
    rw [List.all_cons, Bool.and_eq_true] at h
    simp [List.takeWhile_cons, h.1, ih h.2]

lemma digit1_append {ds r : List Char} (hne : ds ≠ []) (hd : ds.all Char.isDigit = true)
    (hr : r.takeWhile Char.isDigit = []) : digit1 (ds ++ r) = some (r, ds) := by
  simp only [digit1]
  rw [takeWhile_append_all r hd, hr, List.append_nil]
  have hemp : ds.isEmpty = false := by
    cases ds with
    | nil => exact absurd rfl hne
    | cons a t => rfl
  rw [hemp]
  simp only [Bool.false_eq_true, if_false]
  rw [List.drop_left]

lemma digit1_all {es : List Char} (hne : es ≠ []) (hall : es.all Char.isDigit = true) :
    digit1 es = some ([], es) := by
  have := digit1_append (r := []) hne hall (by simp)
  simpa using this

lemma optSign_no_sign {s : List Char}
    (h : ∀ c t, s = c :: t → c ≠ '+' ∧ c ≠ '-') :
    optSign s = some (s, none) := by
  unfold optSign
  split
  · rename_i r
    exact absurd rfl (h '+' r rfl).1
  · rename_i r
    exact absurd rfl (h '-' r rfl).2
  · rfl

lemma digit_ne_signs {c : Char} (h : c.isDigit = true) : c ≠ '+' ∧ c ≠ '-' := by
  constructor
  · intro hc
    rw [hc] at h
    exact absurd h (by decide)
  · intro hc
    rw [hc] at h
    exact absurd h (by decide)

lemma mantissaD_shape {ds fr : List Char} (tail : List Char) (hds : ds ≠ [])
    (hd : ds.all Char.isDigit = true)
    (hfr : fr = [] ∨ ∃ fs, fs ≠ [] ∧ fs.all Char.isDigit = true ∧ fr = '.' :: fs) :
    mantissaD (ds ++ (fr ++ 'D' :: tail)) = some ('D' :: tail, ds ++ fr) := by
  unfold mantissaD
  rcases hfr with hfr | ⟨fs, hfs1, hfs2, hfr⟩
  · subst hfr
    simp only [List.nil_append, List.append_nil]
    have h1 : digit1 (ds ++ 'D' :: tail) = some ('D' :: tail, ds) :=
      digit1_append hds hd (by simp [List.takeWhile_cons])
    simp only [h1]
    have h2 : charP '.' ('D' :: tail) = none := by simp [charP]
    simp [h2]
  · subst hfr
    have h1 : digit1 (ds ++ (('.' :: fs) ++ 'D' :: tail))
        = some (('.' :: fs) ++ 'D' :: tail, ds) :=
      digit1_append hds hd (by simp [List.takeWhile_cons])
    simp only [h1]
    have h2 : charP '.' (('.' :: fs) ++ 'D' :: tail) = some (fs ++ 'D' :: tail, '.') := by
      simp [charP]
    simp only [h2]
    have h3 : digit1 (fs ++ 'D' :: tail) = some ('D' :: tail, fs) :=
      digit1_append hfs1 hfs2 (by simp [List.takeWhile_cons])
    simp only [h3]

/-- **C1**: for every valid Dialect-A literal — optional sign, digit run,
optional `'.'`+digit run, literal `'D'`, optional sign, digit run —
`parse_scientific_d` consumes the whole literal and returns exactly the value
the host float decoder gives the literal with `'E'` substituted for `'D'`. -/
theorem scientific_d_matches_host_decoder :
    ∀ sgnS ds fr esgnS es : List Char,
      (sgnS = [] ∨ sgnS = ['+'] ∨ sgnS = ['-']) →
      ds ≠ [] → ds.all Char.isDigit = true →
      (fr = [] ∨ ∃ fs, fs ≠ [] ∧ fs.all Char.isDigit = true ∧ fr = '.' :: fs) →
      (esgnS = [] ∨ esgnS = ['+'] ∨ esgnS = ['-']) →
      es ≠ [] → es.all Char.isDigit = true →
      parse_scientific_d (sgnS ++ ds ++ fr ++ 'D' :: (esgnS ++ es))
        = Option.map (fun v => (([] : List Char), v))
            (rustParseF64 ((sgnS ++ ds ++ fr ++ 'D' :: (esgnS ++ es)).map substDE)) := by
  intro sgnS ds fr esgnS es hsgn hds hdsall hfr hesgn hes hesall
  simp only [List.append_assoc]
  have hdshead : ∀ c t, ds ++ (fr ++ 'D' :: (esgnS ++ es)) = c :: t → c ≠ '+' ∧ c ≠ '-' := by
    intro c t heq
    cases ds with
    | nil => exact absurd rfl hds
    | cons d ds2 =>
      have hd : d.isDigit = true := by
        rw [List.all_cons, Bool.and_eq_true] at hdsall
        exact hdsall.1
      have : c = d := by
        simp [List.cons_append] at heq
        exact heq.1.symm
      rw [this]
      exact digit_ne_signs hd
  have heshead : ∀ c t, es = c :: t → c ≠ '+' ∧ c ≠ '-' := by
    intro c t heq
    cases es with
    | nil => exact absurd rfl hes
    | cons e es2 =>
      have he1 : e.isDigit = true := by
        rw [List.all_cons, Bool.and_eq_true] at hesall
        exact hesall.1
      have : c = e := by
        simp at heq
        exact heq.1.symm
      rw [this]
      exact digit_ne_signs he1
  have hsign1 : ∃ sgn1, optSign (sgnS ++ (ds ++ (fr ++ 'D' :: (esgnS ++ es))))
      = some (ds ++ (fr ++ 'D' :: (esgnS ++ es)), sgn1) ∧ signChars sgn1 = sgnS := by
    rcases hsgn with h | h | h
    · subst h
      refine ⟨none, ?_, rfl⟩
      simpa using optSign_no_sign hdshead
    · subst h
      exact ⟨some '+', rfl, rfl⟩
    · subst h
      exact ⟨some '-', rfl, rfl⟩
  have hsign2 : ∃ sgn2, optSign (esgnS ++ es) = some (es, sgn2) ∧ signChars sgn2 = esgnS := by
    rcases hesgn with h | h | h
    · subst h
      refine ⟨none, ?_, rfl⟩
      simpa using optSign_no_sign heshead
    · subst h
      exact ⟨some '+', rfl, rfl⟩
    · subst h
      exact ⟨some '-', rfl, rfl⟩
  obtain ⟨sgn1, hs1, hs1c⟩ := hsign1
  obtain ⟨sgn2, hs2, hs2c⟩ := hsign2
  have hmant := mantissaD_shape (esgnS ++ es) hds hdsall hfr
  have hD : charP 'D' ('D' :: (esgnS ++ es)) = some (esgnS ++ es, 'D') := by
    simp [charP]
  have hd1 : digit1 es = some ([], es) := digit1_all hes hesall
  have hds2 : ds.map substDE = ds := map_substDE_digits hdsall
  have hes2 : es.map substDE = es := map_substDE_digits hesall
  have hfr2 : fr.map substDE = fr := by
    rcases hfr with h2 | ⟨fs, hfs0, hfs2, h2⟩
    · subst h2
      rfl
    · subst h2
      simp [map_substDE_digits hfs2, substDE]
  have hsgn2m : sgnS.map substDE = sgnS := by
    rcases hsgn with h | h | h <;> subst h <;> rfl
  have hesgn2m : esgnS.map substDE = esgnS := by
    rcases hesgn with h | h | h <;> subst h <;> rfl
  have hmap : (sgnS ++ (ds ++ (fr ++ 'D' :: (esgnS ++ es)))).map substDE
      = signChars sgn1 ++ (ds ++ fr) ++ 'E' :: (signChars sgn2 ++ es) := by
    rw [hs1c, hs2c]
    simp [List.map_append, hds2, hes2, hfr2, hsgn2m, hesgn2m, substDE]
  unfold parse_scientific_d
  simp only [hs1]
  simp only [hmant]
  simp only [hD]
  simp only [hs2]
  simp only [hd1]
  rw [hmap]
  cases hparse : rustParseF64 (signChars sgn1 ++ (ds ++ fr) ++ 'E' :: (signChars sgn2 ++ es)) with
  | none => simp
  | some v => simp

theorem scientific_d_examples :
    parse_scientific_d "2.500000000D+00".data = some ([], ⟨2500000000, -9⟩) ∧
    parse_scientific_d "-7.453750000D+02".data = some ([], ⟨-7453750000, -7⟩) ∧
    parse_scientific_d "1.066859930D-05".data = some ([], ⟨1066859930, -14⟩) ∧
    DecF.toQ ⟨2500000000, -9⟩ = 5 / 2 ∧
    DecF.toQ ⟨-7453750000, -7⟩ = -(5963 / 8) ∧
    DecF.toQ ⟨1066859930, -14⟩ = 1066859930 / 10 ^ 14 := by
  refine ⟨?_, ?_, ?_, ?_, ?_, ?_⟩
  · have h := scientific_d_matches_host_decoder [] "2".data ".500000000".data ['+'] "00".data
      (Or.inl rfl) (by decide) (by decide)
      (Or.inr ⟨"500000000".data, by decide, by decide, by rfl⟩)
      (Or.inr (Or.inl rfl)) (by decide) (by decide)
    exact h.trans (by rfl)
  · have h := scientific_d_matches_host_decoder ['-'] "7".data ".453750000".data ['+']
      "02".data (Or.inr (Or.inr rfl)) (by decide) (by decide)
      (Or.inr ⟨"453750000".data, by decide, by decide, by rfl⟩)
      (Or.inr (Or.inl rfl)) (by decide) (by decide)
    exact h.trans (by rfl)
  · have h := scientific_d_matches_host_decoder [] "1".data ".066859930".data ['-']
      "05".data (Or.inl rfl) (by decide) (by decide)
      (Or.inr ⟨"066859930".data, by decide, by decide, by rfl⟩)
      (Or.inr (Or.inr rfl)) (by decide) (by decide)
    exact h.trans (by rfl)
  · rw [show ((-9 : ℤ)) = -((9 : ℕ) : ℤ) by norm_num, DecF.toQ_mk_neg]
    norm_num
  · rw [show ((-7 : ℤ)) = -((7 : ℕ) : ℤ) by norm_num, DecF.toQ_mk_neg]
    norm_num
  · rw [show ((-14 : ℤ)) = -((14 : ℕ) : ℤ) by norm_num, DecF.toQ_mk_neg]
    norm_num

example : parse_scientific_d "2.500000000D+00".data = some ([], ⟨2500000000, -9⟩) := by
  decide
example : parse_scientific_d "-7.453750000D+02".data = some ([], ⟨-7453750000, -7⟩) := by
  decide
example : parse_scientific_d "1.066859930D-05".data = some ([], ⟨1066859930, -14⟩) := by
  decide
example : DecF.toQ ⟨2500000000, -9⟩ = 5/2 := by
  rw [show ((-9 : ℤ)) = -((9 : ℕ) : ℤ) by norm_num, DecF.toQ_mk_neg]
  norm_num
example : parse_spaced_float "  20000.   x".data = some ("x".data, ⟨20000, 0⟩) := by decide
example : parse_float "1.2.3".data = some (".3".data, ⟨12, -1⟩) := by decide

end Thermo
